import Mathlib

/-!
Verification of the toolbox repository's query-construction core.

The Go source is embedded shallowly:

* `quote`, `From`, `Order`, `Raw`, `Where`, `GroupBy`, `Limit`, `Offset`,
  `GetCountQuery`, `GetQuery` model `query/query.go` (the `Query` builder).
* `filterMapper`, `filterConditions`, `findField` model the predicate-to-SQL
  mapper of `rest` (file `part_001`).
* `gaRels`/`gaItems`/`getAssociationsF` model the relation-graph walker
  `getAssociations` of `rest` (file `part_001`), with the shared mutable
  visited chain (`loaded[0]`) threaded explicitly and recursion bounded by
  an explicit fuel parameter.
* `reconcile` models the page/offset/size reconciliation block of
  `rest/handlers.go` `FilterViewHandler` (a `none` result models the Go
  runtime panic on integer division by zero).

Go's string primitives used by the source (`strings.Split` with a one-byte
separator, `strings.Trim` with a cutset, `strings.TrimSpace`,
`strings.TrimLeft`, `url.QueryUnescape`) are implemented over `List Char`.
-/

/-- Characters of the Go cutset "`'\"" used by `strings.Trim` in `quote`
and `From` (backtick, single quote, double quote). -/
def isCut (c : Char) : Bool := c == '\x60' || c == '\x27' || c == '\x22'

/-- ASCII whitespace recognized by Go's `strings.TrimSpace` (the source only
ever feeds it ASCII identifiers and SQL fragments). -/
def isGoSpace (c : Char) : Bool :=
  c == ' ' || c == '\t' || c == '\n' || c == '\x0b' || c == '\x0c' || c == '\r'

/-- Drop the characters satisfying `p` from both ends of a list:
the `List Char` core of Go's `strings.Trim`/`strings.TrimSpace`. -/
def trimBy (p : Char → Bool) (l : List Char) : List Char :=
  ((l.dropWhile p).reverse.dropWhile p).reverse

/-- Go `strings.Trim(s, "`'\"")`. -/
def goTrimCut (s : String) : String := String.mk (trimBy isCut s.data)

/-- Go `strings.TrimSpace(s)` (ASCII fragment). -/
def goTrimSpace (s : String) : String := String.mk (trimBy isGoSpace s.data)

/-- Go `strings.Split(s, sep)` for a one-character separator `sep`,
on the character list. `strings.Split` always returns at least one chunk. -/
def splitCharList (c : Char) : List Char → List (List Char)
  | [] => [[]]
  | x :: xs =>
    if x == c then [] :: splitCharList c xs
    else
      match splitCharList c xs with
      | [] => [[x]]
      | h :: t => (x :: h) :: t

/-- Go `strings.Split(s, sep)` for a one-character separator, on strings. -/
def goSplitChar (c : Char) (s : String) : List String :=
  (splitCharList c s.data).map String.mk

theorem splitCharList_nil (c : Char) : splitCharList c [] = [[]] := rfl

theorem splitCharList_cons (c x : Char) (xs : List Char) :
    splitCharList c (x :: xs) =
      if x == c then [] :: splitCharList c xs
      else
        match splitCharList c xs with
        | [] => [[x]]
        | h :: t => (x :: h) :: t := rfl

theorem splitCharList_ne_nil (c : Char) (l : List Char) : splitCharList c l ≠ [] := by
  induction l with
  | nil => simp [splitCharList_nil]
  | cons x xs ih =>
    rw [splitCharList_cons]
    split
    · simp
    · split
      · simp
      · simp

theorem length_splitCharList (c : Char) (l : List Char) :
    (splitCharList c l).length = l.count c + 1 := by
  induction l with
  | nil => simp [splitCharList]
  | cons x xs ih =>
    by_cases hx : (x == c) = true
    · rw [splitCharList_cons, if_pos hx, List.length_cons, ih,
        List.count_cons, if_pos hx]
    · cases hs : splitCharList c xs with
      | nil => exact absurd hs (splitCharList_ne_nil c xs)
      | cons hd tl =>
        rw [hs, List.length_cons] at ih
        rw [splitCharList_cons, if_neg hx, hs, List.count_cons, if_neg hx]
        dsimp only
        rw [List.length_cons]
        omega

theorem splitCharList_of_not_mem (c : Char) (l : List Char) (h : c ∉ l) :
    splitCharList c l = [l] := by
  induction l with
  | nil => simp [splitCharList_nil]
  | cons x xs ih =>
    simp only [List.mem_cons, not_or] at h
    have hne : ¬((x == c) = true) := fun hxc => h.1 (beq_iff_eq.mp hxc).symm
    rw [splitCharList_cons, if_neg hne, ih h.2]

/-- `quote` of `query/query.go`: trim backticks/quotes from both ends; a
two-chunk `table.column` token is quoted per part, anything else is wrapped
whole in backticks. -/
def quote (s : String) : String :=
  let t := trimBy isCut s.data
  match splitCharList '.' t with
  | [c0, c1] => "\x60" ++ String.mk c0 ++ "\x60." ++ "\x60" ++ String.mk c1 ++ "\x60"
  | _ => "\x60" ++ String.mk t ++ "\x60"

-- helper facts about `trimBy`

theorem dropWhile_head_not (p : Char → Bool) (l : List Char) :
    ∀ h, (l.dropWhile p).head? = some h → p h = false := by
  induction l with
  | nil => intro h hh; simp [List.dropWhile] at hh
  | cons x xs ih =>
    intro h hh
    by_cases hx : p x
    · rw [List.dropWhile_cons, if_pos hx] at hh
      exact ih h hh
    · rw [List.dropWhile_cons, if_neg hx] at hh
      simp only [List.head?_cons, Option.some.injEq] at hh
      subst hh
      simpa using hx

theorem mem_of_mem_dropWhile (p : Char → Bool) (a : Char) (l : List Char)
    (h : a ∈ l.dropWhile p) : a ∈ l := by
  induction l with
  | nil => simp [List.dropWhile] at h
  | cons x xs ih =>
    rw [List.dropWhile_cons] at h
    by_cases hx : p x
    · rw [if_pos hx] at h
      exact List.mem_cons_of_mem x (ih h)
    · rw [if_neg hx] at h
      exact h

theorem mem_of_mem_trimBy (p : Char → Bool) (a : Char) (l : List Char)
    (h : a ∈ trimBy p l) : a ∈ l := by
  unfold trimBy at h
  rw [List.mem_reverse] at h
  have h2 := mem_of_mem_dropWhile p a _ h
  rw [List.mem_reverse] at h2
  exact mem_of_mem_dropWhile p a l h2

theorem trimBy_head_not (p : Char → Bool) (l : List Char) :
    ∀ h, (trimBy p l).head? = some h → p h = false := by
  intro h hh
  unfold trimBy at hh
  rw [List.head?_reverse] at hh
  -- h is the getLast? of a dropWhile, hence a member surviving the left trim:
  -- use: getLast? of dropWhile of reverse... relate through getLast?.
  -- The last element of `dropWhile p m` equals the last element of `m`
  -- whenever the dropWhile result is nonempty.
  have key : ∀ (m : List Char) (x : Char), (m.dropWhile p).getLast? = some x →
      m.getLast? = some x ∨ False := by
    intro m x hx
    left
    induction m with
    | nil => simp [List.dropWhile] at hx
    | cons y ys ih =>
      rw [List.dropWhile_cons] at hx
      by_cases hy : p y
      · rw [if_pos hy] at hx
        have := ih hx
        cases ys with
        | nil => simp [List.dropWhile] at hx
        | cons z zs => rw [List.getLast?_cons_cons]; exact this
      · rw [if_neg hy] at hx
        exact hx
  rcases key _ h hh with hk | hk
  · rw [List.getLast?_reverse] at hk
    exact dropWhile_head_not p l h hk
  · exact hk.elim

theorem trimBy_getLast_not (p : Char → Bool) (l : List Char) :
    ∀ h, (trimBy p l).getLast? = some h → p h = false := by
  intro h hh
  unfold trimBy at hh
  rw [List.getLast?_reverse] at hh
  exact dropWhile_head_not p (l.dropWhile p).reverse h hh

/-- Re-trimming a trimmed list wrapped in one backtick on each side gives the
list back. -/
theorem trimBy_backtick_wrap (t : List Char)
    (hhead : ∀ h, t.head? = some h → isCut h = false)
    (hlast : ∀ h, t.getLast? = some h → isCut h = false) :
    trimBy isCut ('\x60' :: (t ++ ['\x60'])) = t := by
  unfold trimBy
  rw [List.dropWhile_cons, if_pos (by simp [isCut])]
  cases t with
  | nil => simp [List.dropWhile, isCut]
  | cons x xs =>
    have hx : isCut x = false := hhead x rfl
    rw [List.cons_append, List.dropWhile_cons, if_neg (by simp [hx])]
    have hrev : ((x :: (xs ++ ['\x60'])) : List Char).reverse
        = '\x60' :: (x :: xs).reverse := by
      simp
    rw [hrev, List.dropWhile_cons, if_pos (by simp [isCut])]
    have hlast' : ∀ h, ((x :: xs).reverse).head? = some h → isCut h = false := by
      intro h hh
      rw [List.head?_reverse] at hh
      exact hlast h hh
    cases hr : (x :: xs).reverse with
    | nil => simp at hr
    | cons y ys =>
      have hy : isCut y = false := hlast' y (by rw [hr]; rfl)
      rw [List.dropWhile_cons, if_neg (by simp [hy]), ← hr, List.reverse_reverse]

theorem quote_eq_of_no_dot (s : String) (h : '.' ∉ trimBy isCut s.data) :
    quote s = "\x60" ++ String.mk (trimBy isCut s.data) ++ "\x60" := by
  simp only [quote]
  rw [splitCharList_of_not_mem _ _ h]

/-- Counterexample to C8 as stated: quoting an already-quoted two-part token
`test.string` does not yield the same result, because the outer backticks are
stripped from the *ends* only, leaving the inner delimiters in place. -/
theorem quote_two_part_not_idempotent :
    quote "test.string" = "\x60test\x60.\x60string\x60" ∧
      quote (quote "test.string") ≠ quote "test.string" := by
  constructor
  · rfl
  · decide

/-- C8 (corrected): identifier quoting is idempotent on tokens containing no
dot: for every such token, `quote (quote s) = quote s`. For two-part
`table.column` tokens the property fails (see the counterexample). -/
theorem quote_idempotent_no_dot (s : String) (h : '.' ∉ s.data) :
    quote (quote s) = quote s := by
  have ht : '.' ∉ trimBy isCut s.data := fun hm => h (mem_of_mem_trimBy _ _ _ hm)
  have h1 := quote_eq_of_no_dot s ht
  have hdata : (quote s).data = '\x60' :: (trimBy isCut s.data ++ ['\x60']) := by
    rw [h1]
    simp [String.data_append]
  have htrim : trimBy isCut (quote s).data = trimBy isCut s.data := by
    rw [hdata]
    exact trimBy_backtick_wrap _ (trimBy_head_not isCut s.data)
      (trimBy_getLast_not isCut s.data)
  have h2 := quote_eq_of_no_dot (quote s) (by rw [htrim]; exact ht)
  rw [h2, htrim, h1]

/-- Witness for the corrected C8 theorem at the bare identifier `users`. -/
theorem quote_idempotent_no_dot_witness :
    '.' ∉ ("users" : String).data ∧ quote (quote "users") = quote "users" :=
  ⟨by decide, quote_idempotent_no_dot "users" (by decide)⟩

/-!
## Page/offset/size reconciliation of `FilterViewHandler` (rest/handlers.go)

Go `int` values are modelled as `Int` (request query integers may be
negative). A `none` result models the Go runtime panic `integer divide by
zero` raised by `offset / size` when `size` is zero. Go's `/` truncates
toward zero, i.e. `Int.tdiv`; the `int(float64(...))` conversion around the
already-integral quotient is the identity for the magnitudes modelled here.
-/


/-- The two size-clamping steps of `FilterViewHandler`: `size > 100` is cut
to 100, then `size == 0` becomes 25 (in that order, as in the source). -/
def sizeClamp (size0 : Int) : Int :=
  let size1 := if size0 > 100 then 100 else size0
  if size1 = 0 then 25 else size1

/-- The page/offset/size reconciliation block of `FilterViewHandler`
(rest/handlers.go lines 343-360), as a function of the three parsed request
integers, returning the effective `(offset, page, size)`; `none` models the
division-by-zero panic. -/
def reconcile (off0 page0 size0 : Int) : Option (Int × Int × Int) :=
  let page1 := if off0 = 0 ∧ page0 > 0 then page0 - 1 else page0
  let off1 := if off0 = 0 ∧ page0 > 0 then page1 * size0 else off0
  if page1 = 0 ∧ off1 > 0 then
    if size0 = 0 then none
    else some (off1, Int.tdiv off1 size0, sizeClamp size0)
  else some (off1, page1, sizeClamp size0)

/-- Counterexample to C6 as stated: a negative requested size is passed
through unchanged, so the effective size does not always land in `[1, 100]`. -/
theorem reconcile_negative_size_unclamped :
    reconcile 0 0 (-5) = some (0, 0, -5) ∧ ¬(1 ≤ (-5 : Int)) := by
  constructor
  · rfl
  · decide

/-- C6 (corrected): the reconciliation satisfies: with `offset = 0` and a
1-based `page > 0`, the effective offset is `(page − 1) × size` and the
effective page is `page − 1`; with `offset > 0` and `page = 0`, the
effective page is `offset / size` truncated toward zero, provided
`size ≠ 0` (a zero size panics there, see C10); otherwise offset and page
pass through. The effective size is the given size clamped above at 100
with zero replaced by 25, hence any *nonnegative* requested size ends in
`[1, 100]`; negative sizes pass through unclamped. -/
theorem reconcile_characterization (off page size : Int) :
    (reconcile off page size =
      if off = 0 ∧ page > 0 then
        some ((page - 1) * size, page - 1, sizeClamp size)
      else if page = 0 ∧ off > 0 then
        (if size = 0 then none else some (off, Int.tdiv off size, sizeClamp size))
      else some (off, page, sizeClamp size)) ∧
    (0 ≤ size → 1 ≤ sizeClamp size ∧ sizeClamp size ≤ 100) := by
  constructor
  · by_cases h1 : off = 0 ∧ page > 0
    · rw [if_pos h1]
      simp only [reconcile, if_pos h1]
      have hz : ¬(page - 1 = 0 ∧ (page - 1) * size > 0) := by
        rintro ⟨hz1, hz2⟩
        rw [hz1, zero_mul] at hz2
        exact lt_irrefl 0 hz2
      rw [if_neg hz]
    · rw [if_neg h1]
      simp only [reconcile, if_neg h1]
  · intro hs
    simp only [sizeClamp]
    split_ifs <;> omega

/-- Witness for the corrected C6 theorem at `offset=0, page=3, size=10`:
effective offset 20, effective (0-based) page 2, effective size 10. -/
theorem reconcile_characterization_witness :
    reconcile 0 3 10 = some (20, 2, 10) ∧
      (0 ≤ (10 : Int) → 1 ≤ sizeClamp 10 ∧ sizeClamp 10 ≤ 100) := by
  have h := reconcile_characterization 0 3 10
  refine ⟨?_, h.2⟩
  rw [h.1]
  decide

/-- C10 (confirmed): a filter-view request with a positive offset and page
and size both zero reaches `offset / size` with `size = 0`: the handler
panics with an integer division by zero (`none` in this model), because the
page derivation runs before the size default and clamp. -/
theorem reconcile_div_by_zero (off : Int) (h : 0 < off) :
    reconcile off 0 0 = none := by
  have h1 : ¬(off = 0 ∧ (0 : Int) > 0) := by omega
  simp only [reconcile, if_neg h1]
  simp [h]

/-- Witness for C10 at `offset = 7`. -/
theorem reconcile_div_by_zero_witness :
    0 < (7 : Int) ∧ reconcile 7 0 0 = none :=
  ⟨by decide, reconcile_div_by_zero 7 (by decide)⟩

/-!
## The filter predicate mapper `filterMapper` (rest, part_001)

Parsed predicates are `FilterM` triples (the Go `map[string]string` produced
by `filterRegEx`, whose keys are always column/condition/value). A field is
modelled by its logical name, database name, and whether its runtime value
implements the custom-filter capability `RestFilter` (a Go interface
assertion). The in-progress `*gorm.DB` query is modelled by its accumulated
where-clauses (fragment plus bound parameters), its `Unscoped` flag, and a
trace of the predicates delegated to `RestFilter` (the Go call mutates
nothing observable on the returned query, so the delegation itself is the
recorded event). The trailing `query.Debug()` call only toggles logging and
is not modelled.
-/

/-- One hex digit, as used by Go's `url.QueryUnescape`. -/
def unhex (c : Char) : Option Nat :=
  if '0' ≤ c ∧ c ≤ '9' then some (c.toNat - '0'.toNat)
  else if 'a' ≤ c ∧ c ≤ 'f' then some (c.toNat - 'a'.toNat + 10)
  else if 'A' ≤ c ∧ c ≤ 'F' then some (c.toNat - 'A'.toNat + 10)
  else none

/-- Go `url.QueryUnescape` on a character list: `+` becomes space, `%XY`
decodes a hex byte, a malformed `%` escape is an error. -/
def queryUnescapeList : List Char → Option (List Char)
  | [] => some []
  | '%' :: a :: b :: rest =>
    match unhex a, unhex b with
    | some ha, some hb =>
      (queryUnescapeList rest).map (fun l => Char.ofNat (16 * ha + hb) :: l)
    | _, _ => none
  | '%' :: _ => none
  | '+' :: rest => (queryUnescapeList rest).map (fun l => ' ' :: l)
  | c :: rest => (queryUnescapeList rest).map (fun l => c :: l)

/-- Go `url.QueryUnescape`; the source discards the error, so a malformed
escape yields the zero value `""`. -/
def queryUnescape (s : String) : String :=
  match queryUnescapeList s.data with
  | some l => String.mk l
  | none => ""

/-- A schema field as read by the mapper: `field.Name`, `field.DBName`, and
whether the field's runtime value implements `RestFilter`. -/
structure FieldM where
  name : String
  dbName : String
  hasRestFilter : Bool
deriving DecidableEq, Repr

/-- The active schema: its ordered field list. -/
structure SchemaM where
  fields : List FieldM
deriving DecidableEq, Repr

/-- A parsed filter predicate `{column, condition, value}`. -/
structure FilterM where
  column : String
  condition : String
  value : String
deriving DecidableEq, Repr

/-- The in-progress query state threaded through the mapper. -/
structure GDB where
  whereClauses : List (String × List String)
  unscoped : Bool
  delegated : List FilterM
deriving DecidableEq, Repr

/-- The mapper's two error shapes: `ErrorColumnNotExist`, and the
`invalid filter condition %s` error. -/
inductive MapperErr
  | columnNotExist
  | invalidCondition (cond : String)
deriving DecidableEq, Repr

/-- The fixed condition vocabulary `filterConditions` of the source. -/
def filterConditions : List (String × String) :=
  [("eq", "="), ("neq", "!="), ("gt", ">"), ("lt", "<"), ("gte", ">="),
   ("lte", "<="), ("in", "in"), ("contains", "LIKE"),
   ("isnull", "IS NULL"), ("notnull", "IS NOT NULL")]

/-- The field-resolution loop of `filterMapper`: first field whose `DBName`
equals the predicate's column. -/
def findField (fields : List FieldM) (col : String) : Option FieldM :=
  fields.find? (fun fld => fld.dbName == col)

/-- `filter["value"], _ = url.QueryUnescape(filter["value"])`. -/
def unescapeFilter (f : FilterM) : FilterM := { f with value := queryUnescape f.value }

/-- `query.Where(frag, params...)`. -/
def gdbWhere (q : GDB) (frag : String) (params : List String) : GDB :=
  { q with whereClauses := q.whereClauses ++ [(frag, params)] }

/-- Outcome of one iteration of the `filterMapper` loop body: an error
return, an early non-error return (custom-filter delegation), or the next
query state. -/
inductive StepRes
  | err (e : MapperErr)
  | done (q : GDB)
  | next (q : GDB)
deriving DecidableEq, Repr

/-- The loop body of `filterMapper` for one predicate. -/
def filterStep (f0 : FilterM) (s : SchemaM) (q : GDB) : StepRes :=
  let f := unescapeFilter f0
  match findField s.fields f.column with
  | none => .err .columnNotExist
  | some fld =>
    if fld.hasRestFilter then
      .done { q with delegated := q.delegated ++ [f] }
    else if f.condition == "notnull" || f.condition == "isnull" then
      let q1 := if f.column == "deleted_at" then { q with unscoped := true } else q
      .next (gdbWhere q1
        ("\x60" ++ f.column ++ "\x60 " ++ ((filterConditions.lookup f.condition).getD ""))
        [])
    else if f.condition == "contains" then
      .next (gdbWhere q ("\x60" ++ f.column ++ "\x60 LIKE ?") ["%" ++ f.value ++ "%"])
    else if f.condition == "in" then
      .next (gdbWhere q ("\x60" ++ f.column ++ "\x60 IN (?)") (goSplitChar ',' f.value))
    else
      match filterConditions.lookup f.condition with
      | some op => .next (gdbWhere q ("\x60" ++ f.column ++ "\x60 " ++ op ++ " ?") [f.value])
      | none => .err (.invalidCondition f.condition)

/-- `filterMapper` of the source: fold the loop body over the parsed
predicates; an error return discards the query, a delegation returns the
query at once. -/
def filterMapper : List FilterM → SchemaM → GDB → Except MapperErr GDB
  | [], _, q => .ok q
  | f0 :: rest, s, q =>
    match filterStep f0 s q with
    | .err e => .error e
    | .done q1 => .ok q1
    | .next q1 => filterMapper rest s q1

theorem filterMapper_nil (s : SchemaM) (q : GDB) : filterMapper [] s q = .ok q := rfl

theorem filterMapper_cons (f0 : FilterM) (rest : List FilterM) (s : SchemaM) (q : GDB) :
    filterMapper (f0 :: rest) s q =
      match filterStep f0 s q with
      | .err e => .error e
      | .done q1 => .ok q1
      | .next q1 => filterMapper rest s q1 := rfl


-- Inversion facts about one mapper step.

theorem filterStep_unknown (f : FilterM) (s : SchemaM) (q : GDB)
    (h : findField s.fields f.column = none) :
    filterStep f s q = .err .columnNotExist := by
  unfold filterStep
  dsimp only
  rw [show (unescapeFilter f).column = f.column from rfl, h]

theorem filterStep_cap (f : FilterM) (s : SchemaM) (q : GDB) (fld : FieldM)
    (hf : findField s.fields f.column = some fld) (hc : fld.hasRestFilter = true) :
    filterStep f s q = .done { q with delegated := q.delegated ++ [unescapeFilter f] } := by
  unfold filterStep
  dsimp only
  rw [show (unescapeFilter f).column = f.column from rfl, hf]
  simp only [hc, if_true]

theorem filterStep_next_of_known (f : FilterM) (s : SchemaM) (q : GDB) (fld : FieldM)
    (hf : findField s.fields f.column = some fld) (hc : fld.hasRestFilter = false)
    (hl : (filterConditions.lookup f.condition).isSome) :
    ∃ q1, filterStep f s q = .next q1 := by
  unfold filterStep
  dsimp only
  rw [show (unescapeFilter f).column = f.column from rfl, hf]
  simp only [hc, Bool.false_eq_true, if_false]
  by_cases h1 : ((unescapeFilter f).condition == "notnull"
      || (unescapeFilter f).condition == "isnull") = true
  · rw [if_pos h1]
    exact ⟨_, rfl⟩
  · rw [if_neg h1]
    by_cases h2 : ((unescapeFilter f).condition == "contains") = true
    · rw [if_pos h2]
      exact ⟨_, rfl⟩
    · rw [if_neg h2]
      by_cases h3 : ((unescapeFilter f).condition == "in") = true
      · rw [if_pos h3]
        exact ⟨_, rfl⟩
      · rw [if_neg h3]
        cases hlk : filterConditions.lookup (unescapeFilter f).condition with
        | some op => exact ⟨_, rfl⟩
        | none =>
          rw [show (unescapeFilter f).condition = f.condition from rfl] at hlk
          rw [hlk] at hl
          simp at hl

theorem filterStep_not_colerr (f : FilterM) (s : SchemaM) (q : GDB) (fld : FieldM)
    (hf : findField s.fields f.column = some fld) :
    filterStep f s q ≠ .err .columnNotExist := by
  unfold filterStep
  dsimp only
  rw [show (unescapeFilter f).column = f.column from rfl, hf]
  dsimp only
  by_cases h0 : fld.hasRestFilter = true
  · simp only [h0, if_true]
    intro hcon
    exact StepRes.noConfusion hcon
  · rw [if_neg h0]
    by_cases h1 : ((unescapeFilter f).condition == "notnull"
        || (unescapeFilter f).condition == "isnull") = true
    · rw [if_pos h1]
      intro hcon
      exact StepRes.noConfusion hcon
    · rw [if_neg h1]
      by_cases h2 : ((unescapeFilter f).condition == "contains") = true
      · rw [if_pos h2]
        intro hcon
        exact StepRes.noConfusion hcon
      · rw [if_neg h2]
        by_cases h3 : ((unescapeFilter f).condition == "in") = true
        · rw [if_pos h3]
          intro hcon
          exact StepRes.noConfusion hcon
        · rw [if_neg h3]
          cases hlk : filterConditions.lookup (unescapeFilter f).condition with
          | some op =>
            intro hcon
            exact StepRes.noConfusion hcon
          | none =>
            intro hcon
            injection hcon with he
            exact MapperErr.noConfusion he

theorem filterStep_done_delegated (f : FilterM) (s : SchemaM) (q qd : GDB)
    (h : filterStep f s q = .done qd) :
    qd.delegated = q.delegated ++ [unescapeFilter f] := by
  unfold filterStep at h
  dsimp only at h
  cases hf : findField s.fields (unescapeFilter f).column with
  | none =>
    rw [hf] at h
    exact StepRes.noConfusion h
  | some fld =>
    rw [hf] at h
    dsimp only at h
    by_cases h0 : fld.hasRestFilter = true
    · rw [if_pos h0] at h
      injection h with he
      rw [← he]
    · simp only [h0, if_false] at h
      by_cases h1 : ((unescapeFilter f).condition == "notnull"
          || (unescapeFilter f).condition == "isnull") = true
      · rw [if_pos h1] at h
        exact StepRes.noConfusion h
      · rw [if_neg h1] at h
        by_cases h2 : ((unescapeFilter f).condition == "contains") = true
        · rw [if_pos h2] at h
          exact StepRes.noConfusion h
        · rw [if_neg h2] at h
          by_cases h3 : ((unescapeFilter f).condition == "in") = true
          · rw [if_pos h3] at h
            exact StepRes.noConfusion h
          · rw [if_neg h3] at h
            cases hlk : filterConditions.lookup (unescapeFilter f).condition with
            | some op =>
              rw [hlk] at h
              exact StepRes.noConfusion h
            | none =>
              rw [hlk] at h
              exact StepRes.noConfusion h

theorem filterStep_next_delegated (f : FilterM) (s : SchemaM) (q qn : GDB)
    (h : filterStep f s q = .next qn) :
    qn.delegated = q.delegated := by
  unfold filterStep at h
  dsimp only at h
  cases hf : findField s.fields (unescapeFilter f).column with
  | none =>
    rw [hf] at h
    exact StepRes.noConfusion h
  | some fld =>
    rw [hf] at h
    dsimp only at h
    by_cases h0 : fld.hasRestFilter = true
    · rw [if_pos h0] at h
      exact StepRes.noConfusion h
    · simp only [h0, if_false] at h
      by_cases h1 : ((unescapeFilter f).condition == "notnull"
          || (unescapeFilter f).condition == "isnull") = true
      · rw [if_pos h1] at h
        injection h with he
        rw [← he]
        by_cases hdel : ((unescapeFilter f).column == "deleted_at") = true
        · simp [gdbWhere, hdel]
        · simp [gdbWhere, hdel]
      · rw [if_neg h1] at h
        by_cases h2 : ((unescapeFilter f).condition == "contains") = true
        · rw [if_pos h2] at h
          injection h with he
          rw [← he]
          simp [gdbWhere]
        · rw [if_neg h2] at h
          by_cases h3 : ((unescapeFilter f).condition == "in") = true
          · rw [if_pos h3] at h
            injection h with he
            rw [← he]
            simp [gdbWhere]
          · rw [if_neg h3] at h
            cases hlk : filterConditions.lookup (unescapeFilter f).condition with
            | some op =>
              rw [hlk] at h
              injection h with he
              rw [← he]
              simp [gdbWhere]
            | none =>
              rw [hlk] at h
              exact StepRes.noConfusion h

/-- The spec's end-to-end entity `{id (pk), name, deleted_at}`, no field
implementing `RestFilter`. -/
def sampleSchema : SchemaM :=
  ⟨[⟨"ID", "id", false⟩, ⟨"Name", "name", false⟩, ⟨"DeletedAt", "deleted_at", false⟩]⟩

/-- A schema whose field `a` carries the custom-filter capability. -/
def schemaCap : SchemaM := ⟨[⟨"A", "a", true⟩, ⟨"B", "b", false⟩]⟩

/-- Counterexample to C2 as stated: the second predicate references the
unknown column `zzz`, yet the mapper returns success, because the first
predicate resolved to a field with the custom-filter capability and the
mapper returns immediately after delegating (the unknown column is never
checked). -/
theorem filterMapper_unknown_column_counterexample :
    findField schemaCap.fields "zzz" = none ∧
      filterMapper [⟨"a", "eq", "1"⟩, ⟨"zzz", "eq", "2"⟩] schemaCap ⟨[], false, []⟩ =
        .ok ⟨[], false, [⟨"a", "eq", "1"⟩]⟩ :=
  ⟨rfl, rfl⟩

/-- C2 (corrected): provided every predicate before the offending one
resolves to a known, non-capability field with a recognized condition (a
custom-filter delegation returns early with no error, and an unrecognized
condition fails first with the invalid-condition error), a predicate whose
column matches no field's DBName makes the mapper fail with the
unknown-column error, discarding the query. Conversely, if every
predicate's column resolves to a known field, the unknown-column error is
never produced. -/
theorem filterMapper_unknown_column :
    (∀ (s : SchemaM) (q : GDB) (fs1 : List FilterM) (f : FilterM) (fs2 : List FilterM),
        (∀ g ∈ fs1, ∃ fld, findField s.fields g.column = some fld ∧
            fld.hasRestFilter = false ∧ (filterConditions.lookup g.condition).isSome) →
        findField s.fields f.column = none →
        filterMapper (fs1 ++ f :: fs2) s q = .error .columnNotExist) ∧
    (∀ (fs : List FilterM) (s : SchemaM) (q : GDB),
        (∀ f ∈ fs, (findField s.fields f.column).isSome) →
        filterMapper fs s q ≠ .error .columnNotExist) := by
  constructor
  · intro s q fs1 f fs2 hknown hnone
    induction fs1 generalizing q with
    | nil =>
      rw [List.nil_append, filterMapper_cons, filterStep_unknown f s q hnone]
    | cons g gs ih =>
      obtain ⟨fld, hfld, hcap, hlk⟩ := hknown g (by simp)
      obtain ⟨q1, hq1⟩ := filterStep_next_of_known g s q fld hfld hcap hlk
      rw [List.cons_append, filterMapper_cons, hq1]
      exact ih q1 (fun g' hg' => hknown g' (List.mem_cons_of_mem g hg'))
  · intro fs s q hknown
    induction fs generalizing q with
    | nil =>
      intro hcon
      exact Except.noConfusion hcon
    | cons f gs ih =>
      rw [filterMapper_cons]
      cases hst : filterStep f s q with
      | err e =>
        obtain ⟨fld, hfld⟩ := Option.isSome_iff_exists.mp (hknown f (by simp))
        have hne := filterStep_not_colerr f s q fld hfld
        intro hcon
        injection hcon with he
        rw [he] at hst
        exact hne hst
      | done q1 =>
        intro hcon
        exact Except.noConfusion hcon
      | next q1 =>
        exact ih q1 (fun g hg => hknown g (List.mem_cons_of_mem f hg))

/-- Witness for the corrected C2 theorem: an unknown column `zzz` alone
fails with the unknown-column error; a predicate list whose columns all
resolve never produces it. -/
theorem filterMapper_unknown_column_witness :
    filterMapper [⟨"zzz", "eq", "1"⟩] sampleSchema ⟨[], false, []⟩ =
        .error .columnNotExist ∧
      filterMapper [⟨"name", "eq", "x"⟩] sampleSchema ⟨[], false, []⟩ ≠
        .error .columnNotExist := by
  constructor
  · exact filterMapper_unknown_column.1 sampleSchema ⟨[], false, []⟩ []
      ⟨"zzz", "eq", "1"⟩ [] (fun g hg => absurd hg (List.not_mem_nil g)) rfl
  · exact filterMapper_unknown_column.2 [⟨"name", "eq", "x"⟩] sampleSchema
      ⟨[], false, []⟩ (by decide)

/-- C3 (confirmed): a predicate whose condition is `isnull` or `notnull`
(on a known, non-capability column) appends the unary fragment
`'col' IS NULL` / `'col' IS NOT NULL` with no bound parameter, and
additionally sets the query's unscoped flag exactly when the column is the
soft-delete marker column `deleted_at`; the mapper then continues with the
remaining predicates. -/
theorem filterMapper_nullcheck (s : SchemaM) (q : GDB) (f : FilterM)
    (rest : List FilterM) (fld : FieldM)
    (hf : findField s.fields f.column = some fld)
    (hc : fld.hasRestFilter = false)
    (hcond : f.condition = "isnull" ∨ f.condition = "notnull") :
    filterMapper (f :: rest) s q = filterMapper rest s
      { q with
        unscoped := if f.column = "deleted_at" then true else q.unscoped,
        whereClauses := q.whereClauses ++
          [("\x60" ++ f.column ++ "\x60 " ++
              (if f.condition = "isnull" then "IS NULL" else "IS NOT NULL"),
            ([] : List String))] } := by
  have hstep : filterStep f s q = .next
      { q with
        unscoped := if f.column = "deleted_at" then true else q.unscoped,
        whereClauses := q.whereClauses ++
          [("\x60" ++ f.column ++ "\x60 " ++
              (if f.condition = "isnull" then "IS NULL" else "IS NOT NULL"),
            ([] : List String))] } := by
    unfold filterStep
    dsimp only
    rw [show (unescapeFilter f).column = f.column from rfl, hf]
    dsimp only
    rw [if_neg (by simp [hc])]
    have h1 : ((unescapeFilter f).condition == "notnull"
        || (unescapeFilter f).condition == "isnull") = true := by
      rcases hcond with h | h <;>
        simp [show (unescapeFilter f).condition = f.condition from rfl, h]
    rw [if_pos h1]
    rcases hcond with h | h <;>
      by_cases hdel : f.column = "deleted_at" <;>
        simp [gdbWhere, show (unescapeFilter f).condition = f.condition from rfl,
          h, hdel, filterConditions, List.lookup]
  rw [filterMapper_cons, hstep]

/-- Witness for C3: the spec's end-to-end case `deleted_at[notnull]=` on the
entity `{id, name, deleted_at}` adds `'deleted_at' IS NOT NULL` with no
parameter and lifts the soft-delete exclusion. -/
theorem filterMapper_nullcheck_witness :
    filterMapper [⟨"deleted_at", "notnull", ""⟩] sampleSchema ⟨[], false, []⟩ =
      .ok ⟨[("\x60deleted_at\x60 IS NOT NULL", [])], true, []⟩ := by
  have h := filterMapper_nullcheck sampleSchema ⟨[], false, []⟩
      ⟨"deleted_at", "notnull", ""⟩ [] ⟨"DeletedAt", "deleted_at", false⟩
      rfl rfl (Or.inr rfl)
  rw [h]
  rfl

/-- Counterexample to C4 as stated: with predicates `a[eq]=1` (custom
capability) then `b[eq]=2`, the second predicate is *not* translated by the
fixed mapping (the result carries no where-fragment at all), because the
mapper returns immediately after delegating the first predicate; the second
conjunct shows the fragment `b[eq]=2` would have produced. -/
theorem filterMapper_delegation_counterexample :
    filterMapper [⟨"a", "eq", "1"⟩, ⟨"b", "eq", "2"⟩] schemaCap ⟨[], false, []⟩ =
        .ok ⟨[], false, [⟨"a", "eq", "1"⟩]⟩ ∧
      filterMapper [⟨"b", "eq", "2"⟩] schemaCap ⟨[], false, []⟩ =
        .ok ⟨[("\x60b\x60 = ?", ["2"])], false, []⟩ :=
  ⟨rfl, rfl⟩

/-- C4 (corrected): when the mapper reaches the first predicate whose
resolved field value implements the custom-filter capability, it delegates
that predicate to the capability, skipping the fixed mapping for it;
predicates *before* it are translated by the fixed mapping as usual, and
the mapper returns at once, so predicates *after* it are not processed at
all. -/
theorem filterMapper_delegation (s : SchemaM) (fs1 : List FilterM) (f : FilterM)
    (fs2 : List FilterM) (q q1 : GDB)
    (h1 : filterMapper fs1 s q = .ok q1) (h2 : q1.delegated = q.delegated)
    (h3 : ∃ fld, findField s.fields f.column = some fld ∧ fld.hasRestFilter = true) :
    filterMapper (fs1 ++ f :: fs2) s q =
      .ok { q1 with delegated := q1.delegated ++ [unescapeFilter f] } := by
  obtain ⟨fld, hfld, hcap⟩ := h3
  induction fs1 generalizing q with
  | nil =>
    rw [filterMapper_nil] at h1
    injection h1 with he
    subst he
    rw [List.nil_append, filterMapper_cons, filterStep_cap f s q fld hfld hcap]
  | cons g gs ih =>
    rw [List.cons_append, filterMapper_cons]
    rw [filterMapper_cons] at h1
    cases hst : filterStep g s q with
    | err e =>
      rw [hst] at h1
      exact Except.noConfusion h1
    | done qd =>
      rw [hst] at h1
      injection h1 with he
      subst he
      have hd := filterStep_done_delegated g s q qd hst
      rw [h2] at hd
      exact absurd hd (by simp)
    | next qn =>
      rw [hst] at h1
      have hnd := filterStep_next_delegated g s q qn hst
      exact ih qn h1 (by rw [hnd]; exact h2)

/-- Witness for the corrected C4 theorem: `b[eq]=2` (fixed mapping) followed
by the delegating `a[eq]=1`: the earlier predicate is translated, the
capability predicate is delegated. -/
theorem filterMapper_delegation_witness :
    filterMapper [⟨"b", "eq", "2"⟩, ⟨"a", "eq", "1"⟩] schemaCap ⟨[], false, []⟩ =
      .ok ⟨[("\x60b\x60 = ?", ["2"])], false, [⟨"a", "eq", "1"⟩]⟩ := by
  have h := filterMapper_delegation schemaCap [⟨"b", "eq", "2"⟩] ⟨"a", "eq", "1"⟩ []
      ⟨[], false, []⟩ ⟨[("\x60b\x60 = ?", ["2"])], false, []⟩ rfl rfl
      ⟨⟨"A", "a", true⟩, rfl, rfl⟩
  exact h.trans rfl

/-!
## The `Query` builder (query/query.go)

`schema.Model` is external (evo); the builder only stores the resolved
models for join inference and hands them to the external pairwise join
logic `q._joins[0].Join(q._joins[1:]...)`, whose `conditions` result the
renderers append to the where list. That join-condition collaborator is a
parameter `jc` of the renderers. Go panics (index out of range on an empty
`_joins`) are modelled as a `none` result of the renderers.
-/

/-- A registered schema model; only the table name is observable here. -/
structure Model where
  table : String
deriving DecidableEq, Repr

/-- Modelled from the spec: `schema.Find` — the external registry lookup
resolving a table name to its registered Schema (\x7bsection 4.5\x7d: "when the
table resolves to a known Schema, registers it for join-condition
inference"). The registry is an explicit parameter. -/
def schemaFind (reg : List Model) (table : String) : Option Model :=
  reg.find? (fun m => m.table == table)

/-- Modelled from the spec: `generic.Parse(s).Int64()` — defensive numeric
parsing, "invalid input coerces to the type's zero value". -/
def digitsToNat (l : List Char) : Nat :=
  l.foldl (fun a c => 10 * a + (c.toNat - 0x30)) 0

/-- Modelled from the spec: defensive string-to-int64 coercion (sign and
digits, anything else coerces to zero). -/
def parseInt64 (s : String) : Int :=
  match s.data with
  | '-' :: ds =>
    if ds ≠ [] ∧ ds.all Char.isDigit then -(digitsToNat ds : Int) else 0
  | ds =>
    if ds ≠ [] ∧ ds.all Char.isDigit then (digitsToNat ds : Int) else 0

/-- The `Query` builder state of `query/query.go`. -/
structure Query where
  _select : List String
  _from : List String
  _where : List String
  _groupBy : String
  _limit : String
  _offset : String
  _order : List String
  _joins : List Model
  raw : String
deriving DecidableEq, Repr

/-- The zero `Query`. -/
def emptyQuery : Query := ⟨[], [], [], "", "", "", [], [], ""⟩

/-- `Query.Raw`: record a raw statement. -/
def Raw (q : Query) (s : String) : Query := { q with raw := s }

/-- `Query.Where`: append a where fragment. -/
def Where (q : Query) (s : String) : Query := { q with _where := q._where ++ [s] }

/-- `Query.GroupBy`. -/
def GroupBy (q : Query) (s : String) : Query := { q with _groupBy := s }

/-- `Query.Offset`. -/
def Offset (q : Query) (s : String) : Query := { q with _offset := s }

/-- `Query.Limit`. -/
def Limit (q : Query) (s : String) : Query := { q with _limit := s }

/-- `Query.From`: quote the table token, deduplicate, and register the
model when the (de-quoted) table resolves in the schema registry. -/
def From (reg : List Model) (q : Query) (s : String) : Query :=
  let s1 := quote s
  if q._from.contains s1 then q
  else
    let q1 :=
      match schemaFind reg (goTrimCut s1) with
      | some m => { q with _joins := q._joins ++ [m] }
      | none => q
    { q1 with _from := q1._from ++ [s1] }

/-- Folding `Query.From` over a table list. -/
def FromFold (reg : List Model) (ts : List String) (q : Query) : Query :=
  ts.foldl (From reg) q

/-- `[a-z_-]` under `(?i)`: the identifier class of `sortRegex`. -/
def isSortIdent (c : Char) : Bool := c.isAlpha || c == '_' || c == '-'

/-- Case-insensitive prefix test (ASCII), for the literal alternatives of
the regexes. -/
def startsWithCI : List Char → List Char → Bool
  | [], _ => true
  | _ :: _, [] => false
  | p :: ps, t :: ts => (p.toLower == t.toLower) && startsWithCI ps ts

/-- Match `(?i)(asc|desc)` at the head, returning the consumed text. -/
def ascDescPrefix (l : List Char) : Option (List Char) :=
  if startsWithCI ['a', 's', 'c'] l then some (l.take 3)
  else if startsWithCI ['d', 'e', 's', 'c'] l then some (l.take 4)
  else none

/-- One anchored attempt of
`sortRegex = (?i)(?P<c1>[a-z_-]+)(\.(?P<c2>[a-z_-]+))?\.(?P<sort>asc|desc)`
at the head of the list, with the regexp package's greedy/backtracking
capture semantics; returns `(c1, optional c2, sort)`. The runs are maximal:
a shorter `c1`/`c2` run would have to be followed by a dot, but the next
character is by construction another identifier character. -/
def matchSortAt (l : List Char) : Option (List Char × Option (List Char) × List Char) :=
  let c1 := l.takeWhile isSortIdent
  let r1 := l.dropWhile isSortIdent
  if c1.isEmpty then none
  else
    match r1 with
    | '.' :: r2 =>
      let c2 := r2.takeWhile isSortIdent
      let r3 := r2.dropWhile isSortIdent
      let withGroup : Option (List Char × Option (List Char) × List Char) :=
        if c2.isEmpty then none
        else
          match r3 with
          | '.' :: r4 => (ascDescPrefix r4).map (fun srt => (c1, some c2, srt))
          | _ => none
      match withGroup with
      | some res => some res
      | none => (ascDescPrefix r2).map (fun srt => (c1, none, srt))
    | _ => none

/-- `sortRegex.FindStringSubmatch`: leftmost match, scanning start
positions left to right. -/
def findSortSubmatch : List Char → Option (List Char × Option (List Char) × List Char)
  | [] => none
  | x :: rest =>
    match matchSortAt (x :: rest) with
    | some r => some r
    | none => findSortSubmatch rest

/-- `Query.Order` of `query/query.go`: split on commas; for each trimmed
token that matches `sortRegex`, append the re-quoted `column direction`
fragment; tokens that do not match are silently skipped. -/
def Order (q : Query) (s : String) : Query :=
  (goSplitChar ',' s).foldl
    (fun acc item =>
      match findSortSubmatch (goTrimSpace item).data with
      | none => acc
      | some (c1, g2, srt) =>
        let frag :=
          match g2 with
          | some c2 => quote (String.mk c1 ++ "." ++ String.mk c2) ++ " " ++ String.mk srt
          | none => quote (String.mk c1) ++ " " ++ String.mk srt
        { acc with _order := acc._order ++ [frag] }) q

/-- `GetCountQuery` of `query/query.go`: renders the COUNT statement from
builder state (never consulting `raw`), after appending the inferred join
conditions to the where list; `none` models the index-out-of-range panic on
an empty `_joins`. The returned `Query` carries the `q._where` mutation. -/
def GetCountQuery (jc : Model → List Model → List String) (q : Query) :
    Option (String × Query) :=
  match q._joins with
  | [] => none
  | j0 :: rest =>
    let base := "SELECT COUNT(*) AS \x60count\x60 FROM " ++ String.intercalate "," q._from
    let w := q._where ++ jc j0 rest
    let withWhere :=
      if w.length > 0 then
        let condition := goTrimSpace (String.intercalate " AND " w)
        if condition ≠ "" then base ++ " WHERE " ++ condition else base
      else base
    let final := if q._groupBy ≠ "" then withWhere ++ " GROUP BY " ++ q._groupBy else withWhere
    some (final, { q with _where := w })

/-- `GetQuery` of `query/query.go`: returns the raw statement verbatim when
set; otherwise renders SELECT/FROM/WHERE/GROUP BY/ORDER BY/LIMIT/OFFSET
from builder state; `none` models the index-out-of-range panic on an empty
`_joins`. -/
def GetQuery (jc : Model → List Model → List String) (q : Query) :
    Option (String × Query) :=
  if q.raw ≠ "" then some (q.raw, q)
  else
    match q._joins with
    | [] => none
    | j0 :: rest =>
      let base := "SELECT " ++ String.intercalate "," q._select ++ " FROM " ++
        String.intercalate "," q._from
      let w := q._where ++ jc j0 rest
      let withWhere :=
        if w.length > 0 then
          let condition := goTrimSpace (String.intercalate " AND " w)
          if condition ≠ "" then base ++ " WHERE " ++ condition else base
        else base
      let withGroup :=
        if q._groupBy ≠ "" then withWhere ++ " GROUP BY " ++ q._groupBy else withWhere
      let withOrder :=
        if q._order.length > 0 then withGroup ++ " ORDER BY " ++ String.intercalate "," q._order
        else withGroup
      let withLimit :=
        if q._limit ≠ "" then withOrder ++ " LIMIT " ++ toString (parseInt64 q._limit)
        else withOrder
      let withOffset :=
        if q._offset ≠ "" then withLimit ++ " OFFSET " ++ toString (parseInt64 q._offset)
        else withLimit
      some (withOffset, { q with _where := w })

/-- The whitespace class `\s` of Go's regexp (RE2): `[\t\n\f\r ]`. -/
def wsChar (c : Char) : Bool :=
  c == ' ' || c == '\t' || c == '\n' || c == '\x0c' || c == '\r'

/-- `[a-zA-Z0-9-_]`: the identifier class of `orderRegex`. -/
def isOrdIdent (c : Char) : Bool := c.isAlphanum || c == '-' || c == '_'

/-- `(?i)(asc|desc)` matches at the head. -/
def ascDescAt (l : List Char) : Bool :=
  startsWithCI ['a', 's', 'c'] l || startsWithCI ['d', 'e', 's', 'c'] l

/-- `\s+(asc|desc)` matches at the head. -/
def wsThenAsc : List Char → Bool
  | [] => false
  | c :: rest => wsChar c && (ascDescAt rest || wsThenAsc rest)

/-- `[a-zA-Z0-9-_]+\s+(asc|desc)` matches at the head. -/
def identThenWsAsc : List Char → Bool
  | [] => false
  | c :: rest => isOrdIdent c && (wsThenAsc rest || identThenWsAsc rest)

/-- `orderRegex.MatchString`: the regex
`(?mi)\s*[a-zA-Z0-9-_]+\s+(asc|desc)\s*` matches somewhere in the string
(unanchored; the outer `\s*` may match empty, so containment of the core
suffices). -/
def orderRegexMatchL : List Char → Bool
  | [] => false
  | l@(_ :: rest) => identThenWsAsc l || orderRegexMatchL rest

/-- `orderRegex.MatchString` on strings. -/
def orderMatchString (s : String) : Bool := orderRegexMatchL s.data

/-- The order-validation step shared by `FilterView.GetData` (the `sort`
parameter, rest/filterview.go lines 97-109) and `Context.ApplyFilters` (the
`order` parameter, part_001 lines 608-620): split the parameter on commas,
and only if every token matches `orderRegex` hand the whole parameter to
`Query.Order`; on any failure the order clause is skipped entirely. -/
def applySortParam (order : String) (q : Query) : Query :=
  if order ≠ "" then
    if (goSplitChar ',' order).all (fun item => orderMatchString item) then Order q order
    else q
  else q

/-- C5 (confirmed): order validation is all-or-nothing: if any single
comma-separated token of the order parameter fails `orderRegex`, no
ordering at all is applied — the builder is left untouched, so no ORDER BY
fragments are emitted. -/
theorem order_all_or_nothing (order : String) (q : Query)
    (h : ∃ item ∈ goSplitChar ',' order, orderMatchString item = false) :
    applySortParam order q = q := by
  unfold applySortParam
  obtain ⟨item, hmem, hfail⟩ := h
  have hall : ¬((goSplitChar ',' order).all (fun item => orderMatchString item) = true) := by
    intro hall
    rw [List.all_eq_true] at hall
    have hcontra := hall item hmem
    rw [hfail] at hcontra
    exact Bool.noConfusion hcontra
  by_cases h0 : order ≠ ""
  · rw [if_pos h0, if_neg hall]
  · rw [if_neg h0]

/-- Witness for C5 at the spec's example `name asc,???`: the second token is
malformed, so the order clause is entirely omitted. -/
theorem order_all_or_nothing_witness :
    (∃ item ∈ goSplitChar ',' "name asc,???", orderMatchString item = false) ∧
      applySortParam "name asc,???" emptyQuery = emptyQuery := by
  refine ⟨?_, order_all_or_nothing _ _ ?_⟩ <;> decide

/-- A raw-statement query with one resolved join, for the C7 counterexample. -/
def qRawUsers : Query :=
  { emptyQuery with _from := ["\x60users\x60"], _joins := [⟨"users"⟩], raw := "SELECT 1" }

/-- Counterexample to C7 as stated: with a raw statement supplied, the data
renderer returns it verbatim but the count renderer does not — it renders
the COUNT statement from builder state (it never consults `raw`). -/
theorem raw_bypass_counterexample :
    qRawUsers.raw = "SELECT 1" ∧
      (GetQuery (fun _ _ => []) qRawUsers).map Prod.fst = some "SELECT 1" ∧
      (GetCountQuery (fun _ _ => []) qRawUsers).map Prod.fst =
        some "SELECT COUNT(*) AS \x60count\x60 FROM \x60users\x60" :=
  ⟨rfl, rfl, rfl⟩

/-- C7 (corrected): when a raw statement has been supplied, the data
renderer `GetQuery` returns it verbatim, bypassing all accumulated state;
the count renderer `GetCountQuery`, however, ignores the raw statement
entirely — its rendered string does not depend on `raw` at all. -/
theorem raw_bypass (jc : Model → List Model → List String) (q : Query) (r : String)
    (h : q.raw ≠ "") :
    GetQuery jc q = some (q.raw, q) ∧
      (GetCountQuery jc { q with raw := r }).map Prod.fst =
        (GetCountQuery jc q).map Prod.fst := by
  constructor
  · unfold GetQuery
    rw [if_pos h]
  · unfold GetCountQuery
    cases hj : q._joins with
    | nil => rfl
    | cons j0 rest => rfl

/-- Witness for the corrected C7 theorem on a concrete raw query. -/
theorem raw_bypass_witness :
    GetQuery (fun _ _ => []) qRawUsers = some ("SELECT 1", qRawUsers) ∧
      (GetCountQuery (fun _ _ => []) { qRawUsers with raw := "X" }).map Prod.fst =
        (GetCountQuery (fun _ _ => []) qRawUsers).map Prod.fst :=
  raw_bypass (fun _ _ => []) qRawUsers "X" (by decide)

/-- A query holding only a raw statement: empty from list, empty joins. -/
def qRawOnly : Query := { emptyQuery with raw := "SELECT 1" }

/-- Counterexample to C9 as stated: a `Query` whose from list is empty (so
no table resolved to a Schema) but with a raw statement set does *not*
panic in `GetQuery` — the raw check precedes the join access and the raw
string is returned. -/
theorem render_panic_counterexample :
    qRawOnly._from = [] ∧ qRawOnly._joins = [] ∧
      GetQuery (fun _ _ => []) qRawOnly = some ("SELECT 1", qRawOnly) :=
  ⟨rfl, rfl, rfl⟩

/-- C9 (corrected): when no from-table resolved to a registered Schema the
joins slice is empty (building via `From` over unresolvable tables adds no
joins), `GetCountQuery` always panics with an index out of range (`none`
here), and `GetQuery` panics as well *unless* a raw statement was supplied,
in which case it returns the raw string before touching the joins;
rendering is safe whenever at least one join was registered. -/
theorem render_panic (jc : Model → List Model → List String) (q : Query) :
    (q._joins = [] → GetCountQuery jc q = none ∧ (q.raw = "" → GetQuery jc q = none)) ∧
    (∀ (reg : List Model) (ts : List String),
        (∀ t ∈ ts, schemaFind reg (goTrimCut (quote t)) = none) →
        (FromFold reg ts q)._joins = q._joins) ∧
    (q._joins ≠ [] → (GetCountQuery jc q).isSome ∧ (GetQuery jc q).isSome) := by
  refine ⟨?_, ?_, ?_⟩
  · intro hj
    constructor
    · unfold GetCountQuery
      rw [hj]
    · intro hraw
      unfold GetQuery
      rw [if_neg (by simp [hraw]), hj]
  · intro reg ts hts
    induction ts generalizing q with
    | nil => rfl
    | cons t ts ih =>
      have hstep : (From reg q t)._joins = q._joins := by
        unfold From
        dsimp only
        by_cases hc : q._from.contains (quote t) = true
        · rw [if_pos hc]
        · rw [if_neg hc]
          rw [hts t (List.mem_cons_self t ts)]
      show (FromFold reg ts (From reg q t))._joins = q._joins
      rw [ih (From reg q t) (fun t' ht' => hts t' (List.mem_cons_of_mem t ht')), hstep]
  · intro hj
    cases hjs : q._joins with
    | nil => exact absurd hjs hj
    | cons j0 rest =>
      constructor
      · unfold GetCountQuery
        rw [hjs]
        exact rfl
      · unfold GetQuery
        by_cases hraw : q.raw ≠ ""
        · rw [if_pos hraw]
          exact rfl
        · rw [if_neg hraw, hjs]
          exact rfl

/-- Witness for the corrected C9 theorem: the empty query (no joins) makes
both renderers panic; `From` over an unknown table registers no join; a
query with a join renders. -/
theorem render_panic_witness :
    (GetCountQuery (fun _ _ => []) emptyQuery = none ∧
      GetQuery (fun _ _ => []) emptyQuery = none) ∧
      (FromFold [] ["unknown"] emptyQuery)._joins = [] ∧
      (GetCountQuery (fun _ _ => []) qRawUsers).isSome := by
  have h := render_panic (fun _ _ => []) emptyQuery
  have h2 := render_panic (fun _ _ => []) qRawUsers
  refine ⟨⟨(h.1 rfl).1, (h.1 rfl).2 rfl⟩, ?_, (h2.2.2 (by decide)).1⟩
  exact h.2.1 [] ["unknown"] (by decide)

/-!
## The relation-graph walker `getAssociations` (rest, part_001)

`loaded` is a one-element variadic slice whose backing array is shared by
every recursive call, so `loaded[0]` is a single mutable dot-joined chain
threaded through the whole traversal; it is modelled as an explicit
`chain : String` state, returned alongside the preload list. The cyclic
schema graph is a registry (list) of schemas whose relationships name their
target schema by table; GORM guarantees every `FieldSchema` pointer
resolves, so a missing registry entry is modelled as an empty schema.
`Relationships.Relations` (the map of all declared relations) is modelled
as the HasOne ++ BelongsTo ++ HasMany concatenation in declaration order
(Go map iteration order is arbitrary; the claims proved here hold for any
order). `item.Schema` for `item ∈ FieldSchema.Relationships.Relations` is
the schema declaring `item`, i.e. `FieldSchema` itself, so the
`item.Schema.Table == s.Table` skip is keyed on the target schema's table.
Recursion is bounded by an explicit fuel, consumed exactly at the Go
function's self-call; `none` means the fuel ran out, and the C1 theorem
shows fuel 4 always suffices.
-/

/-- Go `strings.TrimLeft(s, ".")`. -/
def trimLeftDots (s : String) : String :=
  String.mk (s.data.dropWhile (fun c => c == '.'))

/-- A `schema.Relationship` as read by the walker: `relation.Field.Name`,
`relation.Field.Schema.Table` (the declaring schema's table, which is the
segment appended to the chain), and the target `relation.FieldSchema`
(named by its table). -/
structure RelG where
  fieldName : String
  fieldSchemaTable : String
  targetTable : String
deriving DecidableEq, Repr

/-- A `schema.Schema`: table plus the three relationship lists the walker
concatenates. -/
structure SchemaG where
  table : String
  hasOne : List RelG
  belongsTo : List RelG
  hasMany : List RelG
deriving DecidableEq, Repr

/-- The registered-schema graph. -/
abbrev RegistryG := List SchemaG

/-- Resolve a relationship target (GORM schema pointers always resolve; a
table absent from the registry behaves as an empty schema). -/
def findSchema (reg : RegistryG) (t : String) : SchemaG :=
  (reg.find? (fun s => s.table == t)).getD ⟨t, [], [], []⟩

/-- `relations = HasOne ++ BelongsTo ++ HasMany` of the walker (also used
for `Relationships.Relations`). -/
def relationsOf (s : SchemaG) : List RelG := s.hasOne ++ s.belongsTo ++ s.hasMany

mutual
/-- The outer relation loop of `getAssociations(prefix, s, loaded...)`:
per relation, the back-edge guard (second-to-last chain segment equals
`s.Table`) and the depth guard (more than 4 chain segments) skip the
relation; otherwise the chain grows by `relation.Field.Schema.Table`, the
preload path is emitted, and the inner loop over the target schema's
relations runs. -/
def gaRels (reg : RegistryG) (fuel : Nat) (pre : String) (s : SchemaG)
    (rels : List RelG) (chain : String) : Option (List String × String) :=
  match rels with
  | [] => some ([], chain)
  | rel :: rest =>
    let chunks := goSplitChar '.' chain
    if 2 < chunks.length ∧ chunks.getD (chunks.length - 2) "" = s.table then
      gaRels reg fuel pre s rest chain
    else if 4 < chunks.length then
      gaRels reg fuel pre s rest chain
    else
      let chain1 := chain ++ "." ++ rel.fieldSchemaTable
      let p0 := trimLeftDots (pre ++ "." ++ rel.fieldName)
      let fs := findSchema reg rel.targetTable
      match gaItems reg fuel (pre ++ "." ++ rel.fieldName) s.table fs (relationsOf fs) chain1 with
      | none => none
      | some (ps, chain2) =>
        match gaRels reg fuel pre s rest chain2 with
        | none => none
        | some (ps2, chain3) => some (p0 :: (ps ++ ps2), chain3)
termination_by (fuel, 1, rels.length)

/-- The inner loop over `relation.FieldSchema.Relationships.Relations`:
items whose declaring schema's table equals the current `s.Table` are
skipped (self-loop suppression); otherwise `getAssociations` re-enters the
target schema, consuming one unit of fuel. -/
def gaItems (reg : RegistryG) (fuel : Nat) (pre2 : String) (rootTable : String)
    (fs : SchemaG) (items : List RelG) (chain : String) : Option (List String × String) :=
  match items with
  | [] => some ([], chain)
  | _item :: rest =>
    if fs.table = rootTable then
      gaItems reg fuel pre2 rootTable fs rest chain
    else
      match fuel with
      | 0 => none
      | fuel' + 1 =>
        match gaRels reg fuel' pre2 fs (relationsOf fs) chain with
        | none => none
        | some (ps, chain') =>
          match gaItems reg (fuel' + 1) pre2 rootTable fs rest chain' with
          | none => none
          | some (ps2, chain'') => some (ps ++ ps2, chain'')
termination_by (fuel, 0, items.length)
end

/-- `getAssociations(prefix, s, loaded...)` with an explicit visited chain. -/
def getAssociationsF (reg : RegistryG) (fuel : Nat) (pre : String) (s : SchemaG)
    (chain : String) : Option (List String × String) :=
  gaRels reg fuel pre s (relationsOf s) chain

/-- The top-level call `getAssociations(prefix, s)`: the chain is
initialized to `[s.Table]`. -/
def getAssociations (reg : RegistryG) (fuel : Nat) (pre : String) (s : SchemaG) :
    Option (List String × String) :=
  getAssociationsF reg fuel pre s s.table

/-- Number of dots in the chain; the chain has `dc + 1` segments. -/
def dc (s : String) : Nat := s.data.count '.'

theorem goSplitChar_length (c : Char) (s : String) :
    (goSplitChar c s).length = s.data.count c + 1 := by
  unfold goSplitChar
  rw [List.length_map, length_splitCharList]

theorem dc_append_dot (a b : String) : dc (a ++ "." ++ b) = dc a + 1 + dc b := by
  unfold dc
  rw [String.data_append, String.data_append, List.count_append, List.count_append]
  norm_num [List.count_cons]

-- ### monotonicity of the chain

theorem gaItems_mono_aux (reg : RegistryG) (fuel : Nat)
    (hR : ∀ f', f' < fuel → ∀ (pre : String) (s : SchemaG) (rels : List RelG)
      (chain : String) (ps : List String) (c2 : String),
      gaRels reg f' pre s rels chain = some (ps, c2) → dc chain ≤ dc c2) :
    ∀ (pre2 rootTable : String) (fs : SchemaG) (items : List RelG)
      (chain : String) (ps : List String) (c2 : String),
      gaItems reg fuel pre2 rootTable fs items chain = some (ps, c2) → dc chain ≤ dc c2 := by
  intro pre2 rootTable fs items
  induction items with
  | nil =>
    intro chain ps c2 h
    rw [gaItems.eq_def] at h
    dsimp only at h
    simp only [Option.some.injEq, Prod.mk.injEq] at h
    rw [← h.2]
  | cons item rest ih =>
    intro chain ps c2 h
    rw [gaItems.eq_def] at h
    dsimp only at h
    by_cases hrt : fs.table = rootTable
    · rw [if_pos hrt] at h
      exact ih chain ps c2 h
    · rw [if_neg hrt] at h
      cases fuel with
      | zero => exact Option.noConfusion h
      | succ n =>
        dsimp only at h
        cases hg : gaRels reg n pre2 fs (relationsOf fs) chain with
        | none => rw [hg] at h; exact Option.noConfusion h
        | some pr1 =>
          obtain ⟨ps1, c1⟩ := pr1
          rw [hg] at h
          dsimp only at h
          cases hi : gaItems reg (n + 1) pre2 rootTable fs rest c1 with
          | none => rw [hi] at h; exact Option.noConfusion h
          | some pr2 =>
            obtain ⟨ps2, c3⟩ := pr2
            rw [hi] at h
            simp only [Option.some.injEq, Prod.mk.injEq] at h
            have h1 : dc chain ≤ dc c1 := hR n (Nat.lt_succ_self n) pre2 fs (relationsOf fs) chain ps1 c1 hg
            have h2 : dc c1 ≤ dc c3 := ih c1 ps2 c3 hi
            rw [← h.2]
            omega

theorem gaRels_mono_aux (reg : RegistryG) (fuel : Nat)
    (hI : ∀ (pre2 rootTable : String) (fs : SchemaG) (items : List RelG) (chain : String)
      (ps : List String) (c2 : String),
      gaItems reg fuel pre2 rootTable fs items chain = some (ps, c2) → dc chain ≤ dc c2) :
    ∀ (pre : String) (s : SchemaG) (rels : List RelG) (chain : String) (ps : List String)
      (c2 : String),
      gaRels reg fuel pre s rels chain = some (ps, c2) → dc chain ≤ dc c2 := by
  intro pre s rels
  induction rels with
  | nil =>
    intro chain ps c2 h
    rw [gaRels.eq_def] at h
    dsimp only at h
    simp only [Option.some.injEq, Prod.mk.injEq] at h
    rw [← h.2]
  | cons rel rest ih =>
    intro chain ps c2 h
    rw [gaRels.eq_def] at h
    dsimp only at h
    by_cases hg1 : 2 < (goSplitChar '.' chain).length ∧
        (goSplitChar '.' chain).getD ((goSplitChar '.' chain).length - 2) "" = s.table
    · rw [if_pos hg1] at h
      exact ih chain ps c2 h
    · rw [if_neg hg1] at h
      by_cases hg2 : 4 < (goSplitChar '.' chain).length
      · rw [if_pos hg2] at h
        exact ih chain ps c2 h
      · rw [if_neg hg2] at h
        cases hit : gaItems reg fuel (pre ++ "." ++ rel.fieldName) s.table
            (findSchema reg rel.targetTable) (relationsOf (findSchema reg rel.targetTable))
            (chain ++ "." ++ rel.fieldSchemaTable) with
        | none => rw [hit] at h; exact Option.noConfusion h
        | some pr1 =>
          obtain ⟨ps1, c1⟩ := pr1
          rw [hit] at h
          dsimp only at h
          cases hrr : gaRels reg fuel pre s rest c1 with
          | none => rw [hrr] at h; exact Option.noConfusion h
          | some pr2 =>
            obtain ⟨ps2, c3⟩ := pr2
            rw [hrr] at h
            simp only [Option.some.injEq, Prod.mk.injEq] at h
            have h1 : dc (chain ++ "." ++ rel.fieldSchemaTable) ≤ dc c1 := hI _ _ _ _ _ _ _ hit
            have h0 : dc (chain ++ "." ++ rel.fieldSchemaTable) = dc chain + 1 + dc rel.fieldSchemaTable :=
              dc_append_dot _ _
            have h2 : dc c1 ≤ dc c3 := ih c1 ps2 c3 hrr
            rw [← h.2]
            omega

theorem ga_mono (reg : RegistryG) : ∀ fuel : Nat,
    (∀ (pre : String) (s : SchemaG) (rels : List RelG) (chain : String) (ps : List String)
      (c2 : String),
      gaRels reg fuel pre s rels chain = some (ps, c2) → dc chain ≤ dc c2) ∧
    (∀ (pre2 rootTable : String) (fs : SchemaG) (items : List RelG) (chain : String)
      (ps : List String) (c2 : String),
      gaItems reg fuel pre2 rootTable fs items chain = some (ps, c2) → dc chain ≤ dc c2) := by
  intro fuel
  induction fuel using Nat.strong_induction_on with
  | _ fuel ih =>
    have hI := gaItems_mono_aux reg fuel (fun f' hf' => (ih f' hf').1)
    exact ⟨gaRels_mono_aux reg fuel hI, hI⟩

theorem goSplitDot_length (s : String) : (goSplitChar '.' s).length = dc s + 1 :=
  goSplitChar_length '.' s

-- ### fuel 4 always suffices

theorem gaItems_some_aux (reg : RegistryG) (fuel : Nat)
    (hR : ∀ f', f' < fuel → ∀ (pre : String) (s : SchemaG) (rels : List RelG) (chain : String),
      4 ≤ f' + dc chain → (gaRels reg f' pre s rels chain).isSome) :
    ∀ (pre2 rootTable : String) (fs : SchemaG) (items : List RelG) (chain : String),
      1 ≤ fuel → 4 ≤ (fuel - 1) + dc chain →
      (gaItems reg fuel pre2 rootTable fs items chain).isSome := by
  intro pre2 rootTable fs items
  induction items with
  | nil =>
    intro chain h1 h2
    rw [gaItems.eq_def]
    rfl
  | cons item rest ih =>
    intro chain h1 h2
    rw [gaItems.eq_def]
    dsimp only
    by_cases hrt : fs.table = rootTable
    · rw [if_pos hrt]
      exact ih chain h1 h2
    · rw [if_neg hrt]
      cases fuel with
      | zero => omega
      | succ n =>
        dsimp only
        have hrsome : (gaRels reg n pre2 fs (relationsOf fs) chain).isSome :=
          hR n (Nat.lt_succ_self n) pre2 fs (relationsOf fs) chain (by omega)
        obtain ⟨pr, hg⟩ := Option.isSome_iff_exists.mp hrsome
        obtain ⟨ps1, c1⟩ := pr
        rw [hg]
        dsimp only
        have hmono := (ga_mono reg n).1 pre2 fs (relationsOf fs) chain ps1 c1 hg
        have hisome : (gaItems reg (n + 1) pre2 rootTable fs rest c1).isSome :=
          ih c1 (by omega) (by simp only [Nat.add_sub_cancel] at h2 ⊢; omega)
        obtain ⟨pr2, hi⟩ := Option.isSome_iff_exists.mp hisome
        rw [hi]
        rfl

theorem gaRels_some_aux (reg : RegistryG) (fuel : Nat)
    (hI : ∀ (pre2 rootTable : String) (fs : SchemaG) (items : List RelG) (chain : String),
      1 ≤ fuel → 4 ≤ (fuel - 1) + dc chain →
      (gaItems reg fuel pre2 rootTable fs items chain).isSome) :
    ∀ (pre : String) (s : SchemaG) (rels : List RelG) (chain : String),
      4 ≤ fuel + dc chain → (gaRels reg fuel pre s rels chain).isSome := by
  intro pre s rels
  induction rels with
  | nil =>
    intro chain h
    rw [gaRels.eq_def]
    rfl
  | cons rel rest ih =>
    intro chain h
    rw [gaRels.eq_def]
    dsimp only
    by_cases hg1 : 2 < (goSplitChar '.' chain).length ∧
        (goSplitChar '.' chain).getD ((goSplitChar '.' chain).length - 2) "" = s.table
    · rw [if_pos hg1]
      exact ih chain h
    · rw [if_neg hg1]
      by_cases hg2 : 4 < (goSplitChar '.' chain).length
      · rw [if_pos hg2]
        exact ih chain h
      · rw [if_neg hg2]
        have hlen := goSplitDot_length chain
        have hdc : dc chain ≤ 3 := by omega
        have hfuel1 : 1 ≤ fuel := by omega
        have hgrow := dc_append_dot chain rel.fieldSchemaTable
        have hi : (gaItems reg fuel (pre ++ "." ++ rel.fieldName) s.table
            (findSchema reg rel.targetTable) (relationsOf (findSchema reg rel.targetTable))
            (chain ++ "." ++ rel.fieldSchemaTable)).isSome :=
          hI _ _ _ _ _ hfuel1 (by omega)
        obtain ⟨pr1, hit⟩ := Option.isSome_iff_exists.mp hi
        obtain ⟨ps1, c1⟩ := pr1
        rw [hit]
        dsimp only
        have hmono := (ga_mono reg fuel).2 _ _ _ _ _ _ _ hit
        have hr2 : (gaRels reg fuel pre s rest c1).isSome := ih c1 (by omega)
        obtain ⟨pr2, hrr⟩ := Option.isSome_iff_exists.mp hr2
        rw [hrr]
        rfl

theorem ga_some (reg : RegistryG) : ∀ fuel : Nat,
    (∀ (pre : String) (s : SchemaG) (rels : List RelG) (chain : String),
      4 ≤ fuel + dc chain → (gaRels reg fuel pre s rels chain).isSome) ∧
    (∀ (pre2 rootTable : String) (fs : SchemaG) (items : List RelG) (chain : String),
      1 ≤ fuel → 4 ≤ (fuel - 1) + dc chain →
      (gaItems reg fuel pre2 rootTable fs items chain).isSome) := by
  intro fuel
  induction fuel using Nat.strong_induction_on with
  | _ fuel ih =>
    have hI := gaItems_some_aux reg fuel (fun f' hf' => (ih f' hf').1)
    exact ⟨gaRels_some_aux reg fuel hI, hI⟩

-- ### the result is stable once the fuel suffices

theorem gaItems_stab_aux (reg : RegistryG) (fuel : Nat)
    (hR : ∀ f', f' < fuel → ∀ (pre : String) (s : SchemaG) (rels : List RelG) (chain : String)
      (r : List String × String),
      gaRels reg f' pre s rels chain = some r → gaRels reg (f' + 1) pre s rels chain = some r) :
    ∀ (pre2 rootTable : String) (fs : SchemaG) (items : List RelG) (chain : String)
      (r : List String × String),
      gaItems reg fuel pre2 rootTable fs items chain = some r →
      gaItems reg (fuel + 1) pre2 rootTable fs items chain = some r := by
  intro pre2 rootTable fs items
  induction items with
  | nil =>
    intro chain r h
    rw [gaItems.eq_def] at h ⊢
    exact h
  | cons item rest ih =>
    intro chain r h
    rw [gaItems.eq_def] at h ⊢
    dsimp only at h ⊢
    by_cases hrt : fs.table = rootTable
    · rw [if_pos hrt] at h ⊢
      exact ih chain r h
    · rw [if_neg hrt] at h ⊢
      cases fuel with
      | zero => exact Option.noConfusion h
      | succ n =>
        dsimp only at h ⊢
        cases hg : gaRels reg n pre2 fs (relationsOf fs) chain with
        | none => rw [hg] at h; exact Option.noConfusion h
        | some pr1 =>
          obtain ⟨ps1, c1⟩ := pr1
          rw [hg] at h
          dsimp only at h
          have hg' : gaRels reg (n + 1) pre2 fs (relationsOf fs) chain = some (ps1, c1) :=
            hR n (Nat.lt_succ_self n) pre2 fs (relationsOf fs) chain (ps1, c1) hg
          rw [hg']
          dsimp only
          cases hi : gaItems reg (n + 1) pre2 rootTable fs rest c1 with
          | none => rw [hi] at h; exact Option.noConfusion h
          | some pr2 =>
            rw [hi] at h
            have hi' : gaItems reg (n + 1 + 1) pre2 rootTable fs rest c1 = some pr2 :=
              ih c1 pr2 hi
            rw [hi']
            exact h

theorem gaRels_stab_aux (reg : RegistryG) (fuel : Nat)
    (hI : ∀ (pre2 rootTable : String) (fs : SchemaG) (items : List RelG) (chain : String)
      (r : List String × String),
      gaItems reg fuel pre2 rootTable fs items chain = some r →
      gaItems reg (fuel + 1) pre2 rootTable fs items chain = some r) :
    ∀ (pre : String) (s : SchemaG) (rels : List RelG) (chain : String)
      (r : List String × String),
      gaRels reg fuel pre s rels chain = some r →
      gaRels reg (fuel + 1) pre s rels chain = some r := by
  intro pre s rels
  induction rels with
  | nil =>
    intro chain r h
    rw [gaRels.eq_def] at h ⊢
    exact h
  | cons rel rest ih =>
    intro chain r h
    rw [gaRels.eq_def] at h ⊢
    dsimp only at h ⊢
    by_cases hg1 : 2 < (goSplitChar '.' chain).length ∧
        (goSplitChar '.' chain).getD ((goSplitChar '.' chain).length - 2) "" = s.table
    · rw [if_pos hg1] at h ⊢
      exact ih chain r h
    · rw [if_neg hg1] at h ⊢
      by_cases hg2 : 4 < (goSplitChar '.' chain).length
      · rw [if_pos hg2] at h ⊢
        exact ih chain r h
      · rw [if_neg hg2] at h ⊢
        cases hit : gaItems reg fuel (pre ++ "." ++ rel.fieldName) s.table
            (findSchema reg rel.targetTable) (relationsOf (findSchema reg rel.targetTable))
            (chain ++ "." ++ rel.fieldSchemaTable) with
        | none => rw [hit] at h; exact Option.noConfusion h
        | some pr1 =>
          obtain ⟨ps1, c1⟩ := pr1
          rw [hit] at h
          dsimp only at h
          have hit' := hI _ _ _ _ _ _ hit
          rw [hit']
          dsimp only
          cases hrr : gaRels reg fuel pre s rest c1 with
          | none => rw [hrr] at h; exact Option.noConfusion h
          | some pr2 =>
            rw [hrr] at h
            have hrr' := ih c1 pr2 hrr
            rw [hrr']
            exact h

theorem ga_stab (reg : RegistryG) : ∀ fuel : Nat,
    (∀ (pre : String) (s : SchemaG) (rels : List RelG) (chain : String)
      (r : List String × String),
      gaRels reg fuel pre s rels chain = some r →
      gaRels reg (fuel + 1) pre s rels chain = some r) ∧
    (∀ (pre2 rootTable : String) (fs : SchemaG) (items : List RelG) (chain : String)
      (r : List String × String),
      gaItems reg fuel pre2 rootTable fs items chain = some r →
      gaItems reg (fuel + 1) pre2 rootTable fs items chain = some r) := by
  intro fuel
  induction fuel using Nat.strong_induction_on with
  | _ fuel ih =>
    have hI := gaItems_stab_aux reg fuel (fun f' hf' => (ih f' hf').1)
    exact ⟨gaRels_stab_aux reg fuel hI, hI⟩

theorem gaRels_fuel_le (reg : RegistryG) (pre : String) (s : SchemaG) (rels : List RelG)
    (chain : String) (r : List String × String) :
    ∀ f f', f ≤ f' → gaRels reg f pre s rels chain = some r →
      gaRels reg f' pre s rels chain = some r := by
  intro f f' hle h
  induction f' with
  | zero =>
    have hf0 : f = 0 := Nat.le_zero.mp hle
    rw [← hf0]
    exact h
  | succ n ihn =>
    rcases Nat.lt_or_ge f (n + 1) with hlt | hge
    · have hn : f ≤ n := by omega
      exact (ga_stab reg n).1 pre s rels chain r (ihn hn)
    · have hf : f = n + 1 := by omega
      rw [← hf]
      exact h


/-- C1 (confirmed): the fueled recursion of `getAssociations` never runs
out once the fuel reaches 4: for every registry (cyclic graphs, 2-cycles
and self-references included), every prefix and every root schema, the walk
starting from the chain `[s.Table]` returns a (finite) preload list, and
the result is the same for every fuel `≥ 4` — the recursion is cut off by
the chain-based guards alone: the back-edge guard (second-to-last chain
segment equals the schema being re-entered) and the depth guard (more than
4 chain segments), both of which only ever see a growing chain. -/
theorem getAssociations_terminates (reg : RegistryG) (pre : String) (s : SchemaG)
    (fuel : Nat) (h : 4 ≤ fuel) :
    (getAssociations reg 4 pre s).isSome ∧
      getAssociations reg fuel pre s = getAssociations reg 4 pre s := by
  unfold getAssociations getAssociationsF
  have hsome : (gaRels reg 4 pre s (relationsOf s) s.table).isSome :=
    (ga_some reg 4).1 pre s (relationsOf s) s.table (by omega)
  refine ⟨hsome, ?_⟩
  obtain ⟨r, hr⟩ := Option.isSome_iff_exists.mp hsome
  have hup := gaRels_fuel_le reg pre s (relationsOf s) s.table r 4 fuel h hr
  rw [hup, hr]

/-- Schema `a` of a 2-cycle A↔B: has-many relationship to `b`. -/
def schemaA : SchemaG := ⟨"a", [], [], [⟨"Bs", "a", "b"⟩]⟩

/-- Schema `b` of the 2-cycle: belongs-to relationship back to `a`. -/
def schemaB : SchemaG := ⟨"b", [], [⟨"A", "b", "a"⟩], []⟩

/-- The 2-cycle registry. -/
def regAB : RegistryG := [schemaA, schemaB]

/-- Witness for C1 on the 2-cycle A↔B: the walk terminates at fuel 4 and
fuel 9 computes the same result. -/
theorem getAssociations_terminates_witness :
    (getAssociations regAB 4 "" schemaA).isSome ∧
      getAssociations regAB 9 "" schemaA = getAssociations regAB 4 "" schemaA :=
  ⟨(getAssociations_terminates regAB "" schemaA 9 (by decide)).1,
   (getAssociations_terminates regAB "" schemaA 9 (by decide)).2⟩
